import Mathlib

/-
  Verification of the S3 policy-scan script (`find_policy_in_s3.py`).

  The script streams `.txt` objects from an object store, extracts a fixed
  column range (Python slice 5..23, i.e. 1-indexed columns 6..23) from every
  data line (all lines except the first and the last of each object), and
  reports, per requested policy number, which objects contain it.

  Shallow embedding conventions:
  - a decoded text line is a `List Char` (Python `str` is a sequence of
    code points, and the slice arithmetic is per code point);
  - an object body is `Option (List Line)`: `none` models any transport or
    fetch failure raised while reading the object (the script catches every
    exception and returns the empty set), `some lines` the decoded lines
    delivered by `iter_lines`;
  - sets of policy strings are `Finset Line`;
  - the thread-pool scheduler is modelled as a deterministic fold over the
    enumerated keys; the only nondeterminism of the real program that is
    visible in the aggregated results is the completion order inside one
    harvest batch, modelled by an oracle reordering each drained batch.
-/

namespace FindPolicyS3

/-- A decoded text line, modelled as its list of characters. -/
abbrev Line := List Char

/-- The characters Python `str.strip()` removes: ASCII whitespace. -/
def isPySpace (c : Char) : Bool :=
  c == ' ' || c == '\t' || c == '\n' || c == '\r' || c == '\x0b' || c == '\x0c'

/-- Python `s.strip()`: drop leading and trailing whitespace. -/
def strip (s : Line) : Line :=
  ((s.dropWhile isPySpace).reverse.dropWhile isPySpace).reverse

/-- `normalize_policy(s) = s.strip().replace(" ", "")`: strip surrounding
whitespace, then remove every remaining space character. -/
def normalize_policy (s : Line) : Line :=
  (strip s).filter (fun c => c != ' ')

/-- `POLICY_SLICE = slice(5, 23)`: start offset of the policy field. -/
def POLICY_SLICE_start : Nat := 5

/-- `POLICY_SLICE = slice(5, 23)`: stop offset of the policy field. -/
def POLICY_SLICE_stop : Nat := 23

/-- `policy_in_line(line)`: return the normalized policy taken from
columns 6..23 (Python `line[5:23]`) or `None` when the line is shorter
than the slice stop. -/
def policy_in_line (line : Line) : Option Line :=
  if line.length < POLICY_SLICE_stop then none
  else
    some (normalize_policy
      ((line.drop POLICY_SLICE_start).take (POLICY_SLICE_stop - POLICY_SLICE_start)))

/-- The `for raw in it:` loop of `object_matching_policies_streaming`:
`prev` is the one-line lag buffer, `found` the accumulated matches.  The
pending line is evaluated only once a further line has been produced, so
the final buffered line (the trailer) is never evaluated. -/
def scanLoop (want_set : Finset Line) : List Line → Option Line → Finset Line → Finset Line
  | [], _prev, found => found
  | line :: rest, prev, found =>
      let found1 :=
        match prev with
        | none => found
        | some pv =>
            match policy_in_line pv with
            | some p => if p ∈ want_set then insert p found else found
            | none => found
      scanLoop want_set rest (some line) found1

/-- `object_matching_policies_streaming`: stream one object line by line,
discard the first line, run the lag loop, and return the set of wanted
policies seen in data lines.  `none` stands for any exception raised while
fetching or iterating the object: both `except` arms return the empty set,
and an empty stream (`StopIteration` on the first `next`) also returns the
empty set. -/
def object_matching_policies_streaming
    (content : Option (List Line)) (want_set : Finset Line) : Finset Line :=
  match content with
  | none => ∅
  | some [] => ∅
  | some (_first :: rest) => scanLoop want_set rest none ∅

/-- Python `s.split(",")`, accumulator form: `acc` holds the current part
reversed. -/
def splitCommaAux : Line → Line → List Line
  | [], acc => [acc.reverse]
  | c :: rest, acc =>
      if c == ',' then acc.reverse :: splitCommaAux rest []
      else splitCommaAux rest (c :: acc)

/-- Python `s.split(",")`. -/
def splitComma (s : Line) : List Line := splitCommaAux s []

/-- Python `raw.replace("\n", ",")`. -/
def newlinesToCommas (raw : Line) : Line :=
  raw.map (fun c => if c == '\n' then ',' else c)

/-- `parse_policy_input(raw)`: split on commas and newlines, normalize each
part, keep the non-empty ones, deduplicate keeping first occurrences.  The
fold state is `(seen, out)`, with `seen` modelling the Python `set` as a
list with the same membership. -/
def parse_policy_input (raw : Line) : List Line :=
  ((splitComma (newlinesToCommas raw)).foldl
    (fun st p =>
      let norm := normalize_policy (strip p)
      if norm ≠ [] ∧ norm ∉ st.1 then (norm :: st.1, st.2 ++ [norm]) else st)
    (([], []) : List Line × List Line)).2

/-- Spec-side deduplication: keep the first occurrence of every value,
drop later duplicates. -/
def dedupFirst : List Line → List Line
  | [] => []
  | x :: xs => x :: dedupFirst (xs.filter (fun y => y != x))
termination_by l => l.length
decreasing_by
  simp only [List.length_cons]
  exact Nat.lt_succ_of_le (List.length_filter_le _ _)

/-- `dedupFirst` with an explicit set of already-seen values, mirroring the
fold state of `parse_policy_input`. -/
def dedupAvoid (seen : List Line) : List Line → List Line
  | [] => []
  | x :: xs =>
      if x ∈ seen then dedupAvoid seen xs
      else x :: dedupAvoid (x :: seen) xs

/- ===================== scheduler model (main, lines 136-162) ===================== -/

/-- State threaded through the driving loop of `main`:
`results_by_policy` is the dict from policy to list of matching object
keys (an association list in `policy_list` order), `scanned` the counter
incremented once per enumerated key at submission time, `futures` the
bookkeeping dict from submitted-but-unresolved future to its object key
(in submission order, paired here with the scan result the future will
deliver), and `trace` a ghost record of `len(futures)` after every
mutation of the futures dict, used to state the in-flight bound. -/
structure RunState where
  results_by_policy : List (Line × List Line)
  scanned : Nat
  futures : List (Line × Finset Line)
  trace : List Nat

/-- Python dict lookup on the association-list model (first binding wins;
bindings are unique in every reachable state). -/
def lookupD (p : Line) : List (Line × List Line) → List Line
  | [] => []
  | (q, l) :: rest => if q = p then l else lookupD p rest

/-- One harvested future: `for pol in done.result(): results_by_policy[pol].append(k)`.
Every entry whose policy is in the returned match set gets the object key
appended; the program only ever sees match sets contained in `want_set`,
so every returned policy has an entry. -/
def appendKey (res : List (Line × List Line)) (found : Finset Line) (k : Line) :
    List (Line × List Line) :=
  res.map (fun ql => if ql.1 ∈ found then (ql.1, ql.2 ++ [k]) else ql)

/-- Harvest one batch of completed futures in the order delivered by
`as_completed`, merging each result into the results dict. -/
def mergeBatch (res : List (Line × List Line)) (batch : List (Line × Finset Line)) :
    List (Line × List Line) :=
  batch.foldl (fun acc kf => appendKey acc kf.2 kf.1) res

/-- The object keys a batch contributes to policy `p`: the keys of the
batch entries whose match set contains `p`. -/
def contribution (p : Line) (batch : List (Line × Finset Line)) : List Line :=
  (batch.filter (fun kf => decide (p ∈ kf.2))).map Prod.fst

/-- The driving loop of `main`: for every enumerated key, count it, submit
its scan, and once `len(futures) >= inflight_limit` harvest the first
`max_workers` submitted futures (in the completion order chosen by the
oracle `ord`); after enumeration, harvest all remaining futures.  `ord n`
reorders the `n`-th drained batch; the real scheduler always drains a
batch completely, so the orderings are permutations. -/
def schedLoop (workers cap : Nat) (scanOf : Line → Finset Line)
    (ord : Nat → List (Line × Finset Line) → List (Line × Finset Line)) :
    List Line → Nat → RunState → RunState
  | [], n, st =>
      { st with
        results_by_policy := mergeBatch st.results_by_policy (ord n st.futures),
        futures := [],
        trace := st.trace ++ [0] }
  | key :: rest, n, st =>
      let st1 : RunState :=
        { st with
          scanned := st.scanned + 1,
          futures := st.futures ++ [(key, scanOf key)],
          trace := st.trace ++ [st.futures.length + 1] }
      if cap ≤ st1.futures.length then
        let st2 : RunState :=
          { st1 with
            results_by_policy := mergeBatch st1.results_by_policy (ord n (st1.futures.take workers)),
            futures := st1.futures.drop workers,
            trace := st1.trace ++ [(st1.futures.drop workers).length] }
        schedLoop workers cap scanOf ord rest (n + 1) st2
      else
        schedLoop workers cap scanOf ord rest n st1

/-- `results_by_policy = {p: [] for p in policy_list}`. -/
def initResults (policy_list : List Line) : List (Line × List Line) :=
  policy_list.map (fun p => (p, []))

/-- The whole scheduler run of `main`: `inflight_limit = max_workers * 4`,
empty initial results/futures, `scanned = 0`. -/
def runScheduler (workers : Nat) (scanOf : Line → Finset Line)
    (ord : Nat → List (Line × Finset Line) → List (Line × Finset Line))
    (keys : List Line) (policy_list : List Line) : RunState :=
  schedLoop workers (workers * 4) scanOf ord keys 0
    { results_by_policy := initResults policy_list,
      scanned := 0, futures := [], trace := [0] }

/- ===================== report rendering (main, lines 167-187) ===================== -/

/-- `f"\nPolicy {pol}:"`. -/
def headerLine (pol : Line) : Line := "\nPolicy ".toList ++ pol ++ ":".toList

/-- `f"  {f}"`. -/
def fileLine (f : Line) : Line := "  ".toList ++ f

/-- `f"  ({len(files)} file(s))"`. -/
def countLine (n : Nat) : Line := "  (".toList ++ (toString n).toList ++ " file(s))".toList

/-- `"  (no files found)"`. -/
def noFilesLine : Line := "  (no files found)".toList

/-- The per-policy section of `report_lines`: for each policy in
`policy_list` order, append its header, then its file lines and count, or
the no-files marker. -/
def render_results_section (policy_list : List Line) (results : List (Line × List Line)) :
    List Line :=
  policy_list.foldl
    (fun acc pol =>
      let files := lookupD pol results
      let acc1 := acc ++ [headerLine pol]
      if files ≠ [] then acc1 ++ files.map fileLine ++ [countLine files.length]
      else acc1 ++ [noFilesLine])
    []

/-- Spec-side rendering of one policy block: the key, followed by its own
match list (or the no-files marker). -/
def policyBlock (pol : Line) (files : List Line) : List Line :=
  if files ≠ [] then headerLine pol :: (files.map fileLine ++ [countLine files.length])
  else [headerLine pol, noFilesLine]

/- ===================== helper lemmas: field extractor ===================== -/

theorem policy_in_line_eq_none_of_short {line : Line} (h : line.length < 23) :
    policy_in_line line = none := by
  simp [policy_in_line, POLICY_SLICE_stop, h]

theorem policy_in_line_eq_some_of_long {line : Line} (h : 23 ≤ line.length) :
    policy_in_line line = some (normalize_policy ((line.drop 5).take 18)) := by
  simp only [policy_in_line, POLICY_SLICE_stop, POLICY_SLICE_start]
  rw [if_neg (by omega)]

theorem policy_in_line_isSome_iff (line : Line) :
    (policy_in_line line).isSome = true ↔ 23 ≤ line.length := by
  simp only [policy_in_line, POLICY_SLICE_stop, POLICY_SLICE_start]
  split <;> simp <;> omega

/- ===================== helper lemmas: object scanner ===================== -/

/-- The lines the lag loop still evaluates, given the pending buffer and the
remaining stream: every line of the buffer-extended stream except the last. -/
def evalPending : Option Line → List Line → List Line
  | none, it => it.dropLast
  | some x, it => (x :: it).dropLast

theorem found1_mem (want_set found : Finset Line) (pv p : Line) :
    (p ∈ (match policy_in_line pv with
          | some q => if q ∈ want_set then insert q found else found
          | none => found)) ↔
      p ∈ found ∨ (p ∈ want_set ∧ policy_in_line pv = some p) := by
  cases h : policy_in_line pv with
  | none => simp
  | some q =>
      by_cases hq : q ∈ want_set
      · simp only [if_pos hq, Finset.mem_insert, Option.some.injEq]
        constructor
        · rintro (rfl | hp)
          · exact Or.inr ⟨hq, rfl⟩
          · exact Or.inl hp
        · rintro (hp | ⟨hpw, rfl⟩)
          · exact Or.inr hp
          · exact Or.inl rfl
      · simp only [if_neg hq, Option.some.injEq]
        constructor
        · exact Or.inl
        · rintro (hp | ⟨hpw, rfl⟩)
          · exact hp
          · exact absurd hpw hq

theorem scanLoop_mem (want_set : Finset Line) :
    ∀ (it : List Line) (prev : Option Line) (found : Finset Line) (p : Line),
      p ∈ scanLoop want_set it prev found ↔
        p ∈ found ∨
          (p ∈ want_set ∧ ∃ l ∈ evalPending prev it, policy_in_line l = some p) := by
  intro it
  induction it with
  | nil =>
      intro prev found p
      cases prev <;> simp [scanLoop, evalPending]
  | cons line rest ih =>
      intro prev found p
      cases prev with
      | none =>
          rw [show scanLoop want_set (line :: rest) none found =
                scanLoop want_set rest (some line) found from rfl]
          rw [ih (some line) found p]
          simp [evalPending]
      | some pv =>
          rw [show scanLoop want_set (line :: rest) (some pv) found =
                scanLoop want_set rest (some line)
                  (match policy_in_line pv with
                   | some q => if q ∈ want_set then insert q found else found
                   | none => found) from rfl]
          rw [ih (some line) _ p]
          rw [found1_mem]
          have hdrop : evalPending (some pv) (line :: rest) =
              pv :: evalPending (some line) rest := by
            simp [evalPending]
          rw [hdrop]
          simp only [List.mem_cons, exists_eq_or_imp]
          constructor
          · rintro ((hp | ⟨hw, hv⟩) | ⟨hw, hrest⟩)
            · exact Or.inl hp
            · exact Or.inr ⟨hw, Or.inl hv⟩
            · exact Or.inr ⟨hw, Or.inr hrest⟩
          · rintro (hp | ⟨hw, hv | hrest⟩)
            · exact Or.inl (Or.inl hp)
            · exact Or.inl (Or.inr ⟨hw, hv⟩)
            · exact Or.inr ⟨hw, hrest⟩

theorem scan_mem_iff (want_set : Finset Line) (lines : List Line) (p : Line) :
    p ∈ object_matching_policies_streaming (some lines) want_set ↔
      p ∈ want_set ∧ ∃ l ∈ (lines.drop 1).dropLast, policy_in_line l = some p := by
  cases lines with
  | nil => simp [object_matching_policies_streaming]
  | cons first rest =>
      show p ∈ scanLoop want_set rest none ∅ ↔ _
      rw [scanLoop_mem want_set rest none ∅ p]
      simp [evalPending]

/- ===================== helper lemmas: input parser ===================== -/

theorem parse_fold_spec :
    ∀ (parts : List Line) (seen out : List Line),
      (parts.foldl
        (fun st p =>
          let norm := normalize_policy (strip p)
          if norm ≠ [] ∧ norm ∉ st.1 then (norm :: st.1, st.2 ++ [norm]) else st)
        (seen, out)).2 =
      out ++ dedupAvoid seen
        ((parts.map (fun p => normalize_policy (strip p))).filter (fun x => x != [])) := by
  intro parts
  induction parts with
  | nil => intro seen out; simp [dedupAvoid]
  | cons p rest ih =>
      intro seen out
      simp only [List.foldl_cons, List.map_cons, List.filter_cons]
      by_cases h1 : normalize_policy (strip p) = []
      · rw [if_neg (by simp [h1])]
        have hbne : (normalize_policy (strip p) != ([] : Line)) = false := by
          simp [h1]
        rw [hbne]
        simp only [Bool.false_eq_true, if_false]
        exact ih seen out
      · have hbne : (normalize_policy (strip p) != ([] : Line)) = true := by
          simpa using h1
        rw [hbne]
        simp only [if_true]
        by_cases h2 : normalize_policy (strip p) ∈ seen
        · rw [if_neg (by intro hc; exact hc.2 h2)]
          simp only [dedupAvoid, if_pos h2]
          exact ih seen out
        · rw [if_pos ⟨h1, h2⟩]
          simp only [dedupAvoid, if_neg h2]
          rw [ih (normalize_policy (strip p) :: seen) (out ++ [normalize_policy (strip p)])]
          simp [List.append_assoc]

theorem dedupAvoid_eq_dedupFirst :
    ∀ (l : List Line) (seen : List Line),
      dedupAvoid seen l = dedupFirst (l.filter (fun y => decide (y ∉ seen))) := by
  intro l
  induction l with
  | nil => intro seen; simp [dedupAvoid, dedupFirst]
  | cons x xs ih =>
      intro seen
      simp only [List.filter_cons]
      by_cases hx : x ∈ seen
      · rw [if_neg (by simp [hx])]
        simp only [dedupAvoid, if_pos hx]
        exact ih seen
      · rw [if_pos (by simp [hx])]
        simp only [dedupAvoid, if_neg hx, dedupFirst]
        rw [ih (x :: seen)]
        congr 1
        rw [List.filter_filter]
        congr 1
        apply List.filter_congr
        intro y _
        by_cases hyx : y = x
        · subst hyx
          simp
        · have h1 : (y != x) = true := by simpa using hyx
          have h2 : (decide (y ∉ x :: seen)) = decide (y ∉ seen) := by
            rw [decide_eq_decide]
            simp [List.mem_cons, hyx]
          rw [h2, h1]
          simp

theorem parse_policy_input_eq (raw : Line) :
    parse_policy_input raw =
      dedupFirst (((splitComma (newlinesToCommas raw)).map
        (fun p => normalize_policy (strip p))).filter (fun x => x != [])) := by
  show ((splitComma (newlinesToCommas raw)).foldl _ (([], []) : List Line × List Line)).2 = _
  rw [parse_fold_spec]
  rw [dedupAvoid_eq_dedupFirst]
  simp

theorem mem_dedupFirst :
    ∀ (l : List Line) (y : Line), y ∈ dedupFirst l ↔ y ∈ l := by
  intro l
  induction l using dedupFirst.induct with
  | case1 => intro y; simp [dedupFirst]
  | case2 x xs ih =>
      intro y
      simp only [dedupFirst, List.mem_cons]
      rw [ih y]
      by_cases hyx : y = x
      · subst hyx; simp
      · simp only [hyx, false_or]
        rw [List.mem_filter]
        simp [hyx]

theorem dedupFirst_nodup : ∀ (l : List Line), (dedupFirst l).Nodup := by
  intro l
  induction l using dedupFirst.induct with
  | case1 => simp [dedupFirst]
  | case2 x xs ih =>
      simp only [dedupFirst, List.nodup_cons]
      refine ⟨?_, ih⟩
      intro hmem
      rw [mem_dedupFirst] at hmem
      rw [List.mem_filter] at hmem
      simp at hmem

/- ===================== helper lemmas: merge and lookup ===================== -/

theorem appendKey_fst (res : List (Line × List Line)) (found : Finset Line) (k : Line) :
    (appendKey res found k).map Prod.fst = res.map Prod.fst := by
  induction res with
  | nil => rfl
  | cons ql rest ih =>
      simp only [appendKey, List.map_cons] at ih ⊢
      by_cases h : ql.1 ∈ found
      · rw [if_pos h]
        simpa using ih
      · rw [if_neg h]
        simpa using ih

theorem lookupD_cons (p q : Line) (l : List Line) (rest : List (Line × List Line)) :
    lookupD p ((q, l) :: rest) = if q = p then l else lookupD p rest := rfl

theorem lookupD_appendKey (p : Line) (res : List (Line × List Line))
    (found : Finset Line) (k : Line) :
    lookupD p (appendKey res found k) =
      lookupD p res ++
        (if p ∈ res.map Prod.fst then (if p ∈ found then [k] else []) else []) := by
  induction res with
  | nil => simp [appendKey, lookupD]
  | cons ql rest ih =>
      obtain ⟨q, l⟩ := ql
      have hstep : appendKey ((q, l) :: rest) found k =
          (if q ∈ found then (q, l ++ [k]) else (q, l)) :: appendKey rest found k := by
        simp [appendKey]
      rw [hstep]
      by_cases hq : q = p
      · subst hq
        by_cases hf : q ∈ found
        · rw [if_pos hf, lookupD_cons, if_pos rfl, lookupD_cons, if_pos rfl]
          simp [hf]
        · rw [if_neg hf, lookupD_cons, if_pos rfl, lookupD_cons, if_pos rfl]
          simp [hf]
      · have hcond : (p ∈ (q, l).1 :: rest.map Prod.fst) ↔ p ∈ rest.map Prod.fst := by
          simp [List.mem_cons, Ne.symm hq]
        by_cases hf : q ∈ found
        · rw [if_pos hf, lookupD_cons, if_neg hq, lookupD_cons, if_neg hq, ih]
          congr 1
          simp only [List.map_cons]
          rw [if_congr hcond rfl rfl]
        · rw [if_neg hf, lookupD_cons, if_neg hq, lookupD_cons, if_neg hq, ih]
          congr 1
          simp only [List.map_cons]
          rw [if_congr hcond rfl rfl]

theorem mergeBatch_fst (res : List (Line × List Line)) (batch : List (Line × Finset Line)) :
    (mergeBatch res batch).map Prod.fst = res.map Prod.fst := by
  induction batch generalizing res with
  | nil => rfl
  | cons kf rest ih =>
      simp only [mergeBatch, List.foldl_cons] at ih ⊢
      rw [ih (appendKey res kf.2 kf.1), appendKey_fst]

theorem contribution_nil (p : Line) : contribution p [] = [] := rfl

theorem contribution_cons (p : Line) (k : Line) (f : Finset Line)
    (rest : List (Line × Finset Line)) :
    contribution p ((k, f) :: rest) =
      (if p ∈ f then [k] else []) ++ contribution p rest := by
  simp only [contribution, List.filter_cons]
  by_cases h : p ∈ f
  · simp [h]
  · simp [h]

theorem contribution_append (p : Line) (a b : List (Line × Finset Line)) :
    contribution p (a ++ b) = contribution p a ++ contribution p b := by
  simp [contribution, List.filter_append]

theorem contribution_perm (p : Line) {a b : List (Line × Finset Line)}
    (h : a.Perm b) : (contribution p a).Perm (contribution p b) :=
  (h.filter _).map _

theorem lookupD_mergeBatch (p : Line) (res : List (Line × List Line))
    (batch : List (Line × Finset Line)) :
    lookupD p (mergeBatch res batch) =
      lookupD p res ++
        (if p ∈ res.map Prod.fst then contribution p batch else []) := by
  induction batch generalizing res with
  | nil => simp [mergeBatch, contribution_nil]
  | cons kf rest ih =>
      obtain ⟨k, f⟩ := kf
      have hstep : mergeBatch res ((k, f) :: rest) = mergeBatch (appendKey res f k) rest := rfl
      rw [hstep, ih (appendKey res f k), lookupD_appendKey, appendKey_fst, contribution_cons]
      by_cases hm : p ∈ res.map Prod.fst
      · simp [hm, List.append_assoc]
      · simp [hm]

theorem lookupD_initResults (p : Line) (policy_list : List Line) :
    lookupD p (initResults policy_list) = [] := by
  induction policy_list with
  | nil => rfl
  | cons q rest ih =>
      simp only [initResults, List.map_cons, lookupD] at ih ⊢
      by_cases h : q = p
      · simp [h]
      · simp [h, ih]

theorem initResults_fst (policy_list : List Line) :
    (initResults policy_list).map Prod.fst = policy_list := by
  induction policy_list with
  | nil => rfl
  | cons q rest ih =>
      simp only [initResults, List.map_cons] at ih ⊢
      rw [ih]

/- ===================== helper lemmas: scheduler loop ===================== -/

theorem contribution_take_drop (p : Line) (w : Nat) (l : List (Line × Finset Line)) :
    contribution p (l.take w) ++ contribution p (l.drop w) = contribution p l := by
  rw [← contribution_append, List.take_append_drop]

theorem schedLoop_futures_nil (workers cap : Nat) (scanOf : Line → Finset Line)
    (ord : Nat → List (Line × Finset Line) → List (Line × Finset Line)) :
    ∀ (keys : List Line) (n : Nat) (st : RunState),
      (schedLoop workers cap scanOf ord keys n st).futures = [] := by
  intro keys
  induction keys with
  | nil => intro n st; rfl
  | cons key rest ih =>
      intro n st
      simp only [schedLoop]
      split
      · exact ih _ _
      · exact ih _ _

theorem schedLoop_scanned (workers cap : Nat) (scanOf : Line → Finset Line)
    (ord : Nat → List (Line × Finset Line) → List (Line × Finset Line)) :
    ∀ (keys : List Line) (n : Nat) (st : RunState),
      (schedLoop workers cap scanOf ord keys n st).scanned = st.scanned + keys.length := by
  intro keys
  induction keys with
  | nil => intro n st; rfl
  | cons key rest ih =>
      intro n st
      simp only [schedLoop]
      split
      · rw [ih]
        simp only [List.length_cons]
        omega
      · rw [ih]
        simp only [List.length_cons]
        omega

theorem schedLoop_results_fst (workers cap : Nat) (scanOf : Line → Finset Line)
    (ord : Nat → List (Line × Finset Line) → List (Line × Finset Line)) :
    ∀ (keys : List Line) (n : Nat) (st : RunState),
      (schedLoop workers cap scanOf ord keys n st).results_by_policy.map Prod.fst =
        st.results_by_policy.map Prod.fst := by
  intro keys
  induction keys with
  | nil =>
      intro n st
      simp only [schedLoop]
      exact mergeBatch_fst _ _
  | cons key rest ih =>
      intro n st
      simp only [schedLoop]
      split
      · rw [ih]
        exact mergeBatch_fst _ _
      · exact ih _ _

theorem schedLoop_trace_le (workers cap : Nat) (scanOf : Line → Finset Line)
    (ord : Nat → List (Line × Finset Line) → List (Line × Finset Line))
    (hw : 1 ≤ workers) (hcap : cap = workers * 4) :
    ∀ (keys : List Line) (n : Nat) (st : RunState),
      st.futures.length + 1 ≤ cap → (∀ x ∈ st.trace, x ≤ cap) →
      ∀ x ∈ (schedLoop workers cap scanOf ord keys n st).trace, x ≤ cap := by
  intro keys
  induction keys with
  | nil =>
      intro n st _hlen htr x hx
      simp only [schedLoop, List.mem_append, List.mem_singleton] at hx
      rcases hx with hx | hx
      · exact htr x hx
      · omega
  | cons key rest ih =>
      intro n st hlen htr
      simp only [schedLoop]
      split
      · next hcond =>
        apply ih
        · simp only [List.length_drop, List.length_append, List.length_singleton]
          simp only [List.length_append, List.length_singleton] at hcond
          omega
        · intro x hx
          simp only [List.mem_append, List.mem_singleton] at hx
          rcases hx with (hx | hx) | hx
          · exact htr x hx
          · omega
          · simp only [List.length_drop, List.length_append, List.length_singleton] at hx
            omega
      · next hcond =>
        apply ih
        · simp only [List.length_append, List.length_singleton]
          simp only [List.length_append, List.length_singleton] at hcond
          omega
        · intro x hx
          simp only [List.mem_append, List.mem_singleton] at hx
          rcases hx with hx | hx
          · exact htr x hx
          · omega

theorem schedLoop_lookupD_perm (workers cap : Nat) (scanOf : Line → Finset Line)
    (ord : Nat → List (Line × Finset Line) → List (Line × Finset Line))
    (hord : ∀ n l, (ord n l).Perm l) (p : Line) :
    ∀ (keys : List Line) (n : Nat) (st : RunState),
      (lookupD p (schedLoop workers cap scanOf ord keys n st).results_by_policy).Perm
        (lookupD p st.results_by_policy ++
          (if p ∈ st.results_by_policy.map Prod.fst
           then contribution p st.futures ++ keys.filter (fun k => decide (p ∈ scanOf k))
           else [])) := by
  intro keys
  induction keys with
  | nil =>
      intro n st
      simp only [schedLoop]
      rw [lookupD_mergeBatch]
      by_cases hm : p ∈ st.results_by_policy.map Prod.fst
      · simp only [if_pos hm, List.filter_nil, List.append_nil]
        exact List.Perm.append_left _ (contribution_perm p (hord n st.futures))
      · simp [hm]
  | cons key rest ih =>
      intro n st
      simp only [schedLoop]
      have hfc : (key :: rest).filter (fun k => decide (p ∈ scanOf k)) =
          (if p ∈ scanOf key then [key] else []) ++
            rest.filter (fun k => decide (p ∈ scanOf k)) := by
        by_cases hk : p ∈ scanOf key <;> simp [List.filter_cons, hk]
      have hctf : contribution p (st.futures ++ [(key, scanOf key)]) =
          contribution p st.futures ++ (if p ∈ scanOf key then [key] else []) := by
        rw [contribution_append, contribution_cons, contribution_nil, List.append_nil]
      split
      · next hcond =>
        refine (ih _ _).trans ?_
        rw [lookupD_mergeBatch, mergeBatch_fst]
        by_cases hm : p ∈ st.results_by_policy.map Prod.fst
        · simp only [if_pos hm]
          refine List.Perm.trans
            (List.Perm.append_right _
              (List.Perm.append_left _
                (contribution_perm p (hord n ((st.futures ++ [(key, scanOf key)]).take workers)))))
            ?_
          have heq :
              (lookupD p st.results_by_policy ++
                contribution p ((st.futures ++ [(key, scanOf key)]).take workers)) ++
              (contribution p ((st.futures ++ [(key, scanOf key)]).drop workers) ++
                rest.filter (fun k => decide (p ∈ scanOf k))) =
              lookupD p st.results_by_policy ++
                (contribution p st.futures ++
                  (key :: rest).filter (fun k => decide (p ∈ scanOf k))) := by
            rw [hfc]
            rw [List.append_assoc, ← List.append_assoc
              (contribution p ((st.futures ++ [(key, scanOf key)]).take workers))]
            rw [contribution_take_drop, hctf]
            simp [List.append_assoc]
          rw [heq]
        · simp only [if_neg hm, List.append_nil]
          exact List.Perm.refl _
      · next hcond =>
        refine (ih _ _).trans ?_
        by_cases hm : p ∈ st.results_by_policy.map Prod.fst
        · simp only [if_pos hm]
          rw [hctf, hfc]
          simp [List.append_assoc]
        · simp only [if_neg hm]
          exact List.Perm.refl _

theorem runScheduler_lookupD_perm (workers : Nat) (scanOf : Line → Finset Line)
    (ord : Nat → List (Line × Finset Line) → List (Line × Finset Line))
    (hord : ∀ n l, (ord n l).Perm l) (keys policy_list : List Line) (p : Line) :
    (lookupD p (runScheduler workers scanOf ord keys policy_list).results_by_policy).Perm
      (if p ∈ policy_list
       then keys.filter (fun k => decide (p ∈ scanOf k))
       else []) := by
  have h := schedLoop_lookupD_perm workers (workers * 4) scanOf ord hord p keys 0
    { results_by_policy := initResults policy_list,
      scanned := 0, futures := [], trace := [0] }
  simp only [runScheduler]
  refine h.trans ?_
  rw [lookupD_initResults, initResults_fst]
  simp only [contribution_nil, List.nil_append]
  by_cases hm : p ∈ policy_list
  · simp [hm]
  · simp [hm]

/- ===================== claim theorems: C5, C6, C9 ===================== -/

/-- C5: field extraction takes exactly the characters of the fixed
1-indexed inclusive column range 6..23 (0-based offsets 5..22, 18
characters) of the line and then normalizes them; on the concrete line
`155396H1096926XYZABCDEF` (with or without trailing padding) the extracted
value is the 18-character substring starting at offset 5, not any other
identifier-looking substring. -/
theorem claim_C5_fixed_column_range (line : Line) (h : 23 ≤ line.length) :
    policy_in_line line = some (normalize_policy ((line.drop 5).take 18)) ∧
    ((line.drop 5).take 18).length = 18 ∧
    policy_in_line ("155396H1096926XYZABCDEF".toList) =
      some ("6H1096926XYZABCDEF".toList) ∧
    policy_in_line ("155396H1096926XYZABCDEF".toList ++ "0123456".toList) =
      some ("6H1096926XYZABCDEF".toList) := by
  refine ⟨policy_in_line_eq_some_of_long h, ?_, by decide, by decide⟩
  simp [List.length_take, List.length_drop]
  omega

/-- Witness for C5 at a concrete 23-character line. -/
theorem claim_C5_fixed_column_range_witness :
    policy_in_line ("155396H1096926XYZABCDEF".toList) =
      some (normalize_policy (("155396H1096926XYZABCDEF".toList.drop 5).take 18)) :=
  (claim_C5_fixed_column_range ("155396H1096926XYZABCDEF".toList) (by decide)).1

/-- C6: for every line shorter than 23 characters, field extraction yields
no value (returns `none`), totally (no exception, no partial field). -/
theorem claim_C6_short_line_no_value (line : Line) (h : line.length < 23) :
    policy_in_line line = none :=
  policy_in_line_eq_none_of_short h

/-- Witness for C6 at a concrete short line. -/
theorem claim_C6_short_line_no_value_witness :
    policy_in_line ("155396H1096926".toList) = none :=
  claim_C6_short_line_no_value ("155396H1096926".toList) (by decide)

/-- C9: field extraction succeeds exactly when the line has at least 23
characters; in particular a line of exactly 23 characters does yield a
field. -/
theorem claim_C9_extraction_iff_length (line : Line) :
    ((policy_in_line line).isSome = true ↔ 23 ≤ line.length) ∧
    (policy_in_line ("12345678901234567890123".toList)).isSome = true :=
  ⟨policy_in_line_isSome_iff line, by decide⟩

/-- C1: the per-object scan returns exactly the set of wanted normalized
values whose extracted field appears in some data line, where the data
lines of an N-line object are lines 2..N-1 (1-indexed): the first and last
lines are never evaluated, and an object with fewer than 2 lines (the
empty stream included) yields the empty set rather than an error. -/
theorem claim_C1_scan_data_lines (want_set : Finset Line) (lines : List Line) (p : Line) :
    (p ∈ object_matching_policies_streaming (some lines) want_set ↔
      p ∈ want_set ∧ ∃ l ∈ (lines.drop 1).dropLast, policy_in_line l = some p) ∧
    object_matching_policies_streaming (some ([] : List Line)) want_set = ∅ ∧
    (∀ l0 : Line, object_matching_policies_streaming (some [l0]) want_set = ∅) := by
  refine ⟨scan_mem_iff want_set lines p, rfl, fun l0 => rfl⟩

/-- C8: `parse_policy_input` splits its raw input on commas and newlines,
normalizes each part (strip surrounding whitespace, remove all interior
spaces), drops parts that are empty after normalization, and returns a
duplicate-free list keeping first occurrences in order; and the inputs
`" 12 34 "` and `"1234"` normalize to the same key. -/
theorem claim_C8_parse_policy_input (raw : Line) :
    parse_policy_input raw =
      dedupFirst (((splitComma (newlinesToCommas raw)).map
        (fun p => normalize_policy (strip p))).filter (fun x => x != [])) ∧
    (parse_policy_input raw).Nodup ∧
    normalize_policy (" 12 34 ".toList) = normalize_policy ("1234".toList) ∧
    parse_policy_input (" 12 34 ,99,1234,99".toList) =
      ["1234".toList, "99".toList] := by
  refine ⟨parse_policy_input_eq raw, ?_, by decide, by decide⟩
  rw [parse_policy_input_eq raw]
  exact dedupFirst_nodup _

/- ===================== helper lemmas: report rendering ===================== -/

theorem foldl_append_join {α : Type} (g : α → List Line) :
    ∀ (l : List α) (acc : List Line),
      l.foldl (fun a x => a ++ g x) acc = acc ++ (l.map g).flatten := by
  intro l
  induction l with
  | nil => intro acc; simp
  | cons x rest ih =>
      intro acc
      simp only [List.foldl_cons, List.map_cons, List.flatten_cons]
      rw [ih]
      simp [List.append_assoc]

/- ===================== claim theorems: C2, C3, C4, C7, C10 ===================== -/

/-- C2: in the driving loop, the number of submitted-but-unresolved scan
invocations (entries of the futures map, recorded in the ghost trace after
every mutation) never exceeds the in-flight cap of 4 times the worker
count; new work is submitted only while below the cap, a batch is drained
at the cap, and after enumeration every remaining in-flight invocation is
drained (the final futures map is empty). -/
theorem claim_C2_inflight_cap (workers : Nat) (scanOf : Line → Finset Line)
    (ord : Nat → List (Line × Finset Line) → List (Line × Finset Line))
    (keys policy_list : List Line) (hw : 1 ≤ workers) :
    ((runScheduler workers scanOf ord keys policy_list).trace.all
      (fun x => decide (x ≤ workers * 4))) = true ∧
    (runScheduler workers scanOf ord keys policy_list).futures = [] := by
  constructor
  · rw [List.all_eq_true]
    intro x hx
    rw [decide_eq_true_eq]
    refine schedLoop_trace_le workers (workers * 4) scanOf ord hw rfl keys 0 _ ?_ ?_ x hx
    · simp only [List.length_nil]
      omega
    · intro y hy
      simp only [List.mem_singleton] at hy
      omega
  · exact schedLoop_futures_nil workers (workers * 4) scanOf ord keys 0 _

/-- Witness for C2: one worker (cap 4) over six enumerated objects. -/
theorem claim_C2_inflight_cap_witness :
    ((runScheduler 1 (fun _ => ∅) (fun _ l => l)
        ["a".toList, "b".toList, "c".toList, "d".toList, "e".toList, "f".toList]
        ["P".toList]).trace.all (fun x => decide (x ≤ 1 * 4))) = true ∧
    (runScheduler 1 (fun _ => ∅) (fun _ l => l)
        ["a".toList, "b".toList, "c".toList, "d".toList, "e".toList, "f".toList]
        ["P".toList]).futures = [] :=
  claim_C2_inflight_cap 1 (fun _ => ∅) (fun _ l => l)
    ["a".toList, "b".toList, "c".toList, "d".toList, "e".toList, "f".toList]
    ["P".toList] (by decide)

/-- C3: a transport-level failure while reading one object (modelled by
`fetch` returning `none`) is converted by the per-object scan into the
empty match set; consequently, in a run whose scan of object `c` fails,
`c` appears in no key's result list, the run completes, and the scanned
count still includes every enumerated object, `c` included. -/
theorem claim_C3_transport_failure (want_set : Finset Line)
    (fetch : Line → Option (List Line)) (workers : Nat)
    (ord : Nat → List (Line × Finset Line) → List (Line × Finset Line))
    (hord : ∀ n l, (ord n l).Perm l)
    (keys policy_list : List Line) (c : Line) (hc : fetch c = none) :
    object_matching_policies_streaming none want_set = ∅ ∧
    (runScheduler workers (fun k => object_matching_policies_streaming (fetch k) want_set)
        ord keys policy_list).scanned = keys.length ∧
    (policy_list.all (fun p => decide (c ∉ lookupD p
      (runScheduler workers (fun k => object_matching_policies_streaming (fetch k) want_set)
        ord keys policy_list).results_by_policy))) = true := by
  refine ⟨rfl, ?_, ?_⟩
  · show (schedLoop _ _ _ _ keys 0 _).scanned = keys.length
    rw [schedLoop_scanned]
    simp
  · rw [List.all_eq_true]
    intro p hp
    rw [decide_eq_true_eq]
    intro hcmem
    have hperm := runScheduler_lookupD_perm workers
      (fun k => object_matching_policies_streaming (fetch k) want_set) ord hord
      keys policy_list p
    rw [hperm.mem_iff] at hcmem
    rw [if_pos hp] at hcmem
    rw [List.mem_filter] at hcmem
    rw [decide_eq_true_eq] at hcmem
    have : p ∈ object_matching_policies_streaming none want_set := by
      rw [← hc]
      exact hcmem.2
    simp [object_matching_policies_streaming] at this

/-- Witness for C3: one policy, one object whose fetch fails. -/
theorem claim_C3_transport_failure_witness :
    object_matching_policies_streaming none ({"A".toList} : Finset Line) = ∅ ∧
    (runScheduler 1
        (fun k => object_matching_policies_streaming ((fun _ => none) k)
          ({"A".toList} : Finset Line))
        (fun _ l => l) ["c.txt".toList] ["A".toList]).scanned = ["c.txt".toList].length ∧
    (["A".toList].all (fun p => decide ("c.txt".toList ∉ lookupD p
      (runScheduler 1
        (fun k => object_matching_policies_streaming ((fun _ => none) k)
          ({"A".toList} : Finset Line))
        (fun _ l => l) ["c.txt".toList] ["A".toList]).results_by_policy))) = true :=
  claim_C3_transport_failure ({"A".toList} : Finset Line) (fun _ => none) 1
    (fun _ l => l) (fun _ l => List.Perm.refl l)
    ["c.txt".toList] ["A".toList] ("c.txt".toList) rfl

/-- C4: the report's results section enumerates exactly the parsed keys,
in their original (deduplicated) input order, each followed by its own
match list: the rendered section is the concatenation, over `policy_list`
in order, of each key's block. -/
theorem claim_C4_report_order (policy_list : List Line)
    (results : List (Line × List Line)) :
    render_results_section policy_list results =
      (policy_list.map (fun pol => policyBlock pol (lookupD pol results))).flatten := by
  have hfun : (fun (acc : List Line) (pol : Line) =>
      let files := lookupD pol results
      let acc1 := acc ++ [headerLine pol]
      if files ≠ [] then acc1 ++ files.map fileLine ++ [countLine files.length]
      else acc1 ++ [noFilesLine]) =
      fun acc pol => acc ++ policyBlock pol (lookupD pol results) := by
    funext acc pol
    simp only [policyBlock]
    by_cases hf : lookupD pol results ≠ []
    · rw [if_pos hf, if_pos hf]
      simp [List.append_assoc]
    · rw [if_neg hf, if_neg hf]
      simp [List.append_assoc]
  show policy_list.foldl _ [] = _
  rw [hfun, foldl_append_join]
  rfl

/-- C7: two scheduler runs over the same object set with the same keys,
differing only in scan completion order (the batch-reordering oracles),
produce per-key result lists that are equal as sets for every parsed key. -/
theorem claim_C7_completion_order_irrelevant (workers : Nat)
    (scanOf : Line → Finset Line)
    (ord1 ord2 : Nat → List (Line × Finset Line) → List (Line × Finset Line))
    (h1 : ∀ n l, (ord1 n l).Perm l) (h2 : ∀ n l, (ord2 n l).Perm l)
    (keys policy_list : List Line) :
    (policy_list.all (fun p =>
      decide ((lookupD p
          (runScheduler workers scanOf ord1 keys policy_list).results_by_policy).toFinset =
        (lookupD p
          (runScheduler workers scanOf ord2 keys policy_list).results_by_policy).toFinset)))
      = true := by
  rw [List.all_eq_true]
  intro p hp
  rw [decide_eq_true_eq]
  have ha := runScheduler_lookupD_perm workers scanOf ord1 h1 keys policy_list p
  have hb := runScheduler_lookupD_perm workers scanOf ord2 h2 keys policy_list p
  have hperm := ha.trans hb.symm
  apply Finset.ext
  intro x
  simp only [List.mem_toFinset]
  exact hperm.mem_iff

/-- Witness for C7: identity completion order against reversed completion
order, over two objects of which one matches. -/
theorem claim_C7_completion_order_irrelevant_witness :
    (["P".toList].all (fun p =>
      decide ((lookupD p
          (runScheduler 2 (fun k => if k = "a".toList then ({"P".toList} : Finset Line) else ∅)
            (fun _ l => l) ["a".toList, "b".toList] ["P".toList]).results_by_policy).toFinset =
        (lookupD p
          (runScheduler 2 (fun k => if k = "a".toList then ({"P".toList} : Finset Line) else ∅)
            (fun _ l => l.reverse) ["a".toList, "b".toList] ["P".toList]).results_by_policy).toFinset)))
      = true :=
  claim_C7_completion_order_irrelevant 2
    (fun k => if k = "a".toList then ({"P".toList} : Finset Line) else ∅)
    (fun _ l => l) (fun _ l => l.reverse)
    (fun _ l => List.Perm.refl l) (fun _ l => List.reverse_perm l)
    ["a".toList, "b".toList] ["P".toList]

/-- C10: the result map always has exactly one entry per parsed key, in
order (initialization binds every key to the empty list, and merging only
ever appends to existing entries, never adds or removes keys); and the
report renders the no-files marker for a key whose list is empty. -/
theorem claim_C10_result_map_keys (workers : Nat) (scanOf : Line → Finset Line)
    (ord : Nat → List (Line × Finset Line) → List (Line × Finset Line))
    (keys policy_list : List Line) (res : List (Line × List Line))
    (batch : List (Line × Finset Line)) (p pol : Line) :
    (runScheduler workers scanOf ord keys policy_list).results_by_policy.map Prod.fst
      = policy_list ∧
    lookupD p (initResults policy_list) = [] ∧
    lookupD p (mergeBatch res batch) =
      lookupD p res ++ (if p ∈ res.map Prod.fst then contribution p batch else []) ∧
    render_results_section [pol] (initResults policy_list)
      = [headerLine pol, noFilesLine] := by
  refine ⟨?_, lookupD_initResults p policy_list, lookupD_mergeBatch p res batch, ?_⟩
  · show (schedLoop _ _ _ _ keys 0 _).results_by_policy.map Prod.fst = _
    rw [schedLoop_results_fst]
    exact initResults_fst policy_list
  · simp only [render_results_section, List.foldl_cons, List.foldl_nil]
    rw [lookupD_initResults]
    simp

end FindPolicyS3
